import Mathlib

/-!
Shallow embedding of the keyword-matching / highlighting / scoring core of the
cv-matcher repository (`app.py`, `src/utils/keyword_matcher.py`,
`src/utils/priority_skills.py`), together with theorems settling the claims
about it.

Modelling conventions:
* Python strings are modelled as `List Char`; all inputs exercised here are
  ASCII, and Python's Unicode-aware `\w`, `\s`, `str.lower` and `str.strip`
  are modelled by their ASCII restrictions.
* Python numbers: the scoring code computes over IEEE floats; it is modelled
  with exact rationals (`ℚ`).  All decimal constants of the source
  (0.50, 0.25, 0.20, 0.05, 0.7, 0.65) are written as the corresponding exact
  fractions.  `int(x)` is truncation toward zero and `round(x)` is Python's
  round-half-to-even.
* Python sets are modelled as `Finset`, dicts as association lists with
  in-place update.
-/

namespace CvMatcher

/-- Python strings, modelled as lists of characters. -/
abbrev Str := List Char

/-- Python's regex `\w` (word character), restricted to ASCII:
letters, digits, and underscore. -/
def isWordChar (c : Char) : Bool := c.isAlphanum || c == '_'

/-- Python `str.lower()`, restricted to ASCII. -/
def lowerStr (s : Str) : Str := s.map Char.toLower

/-- Case-insensitive prefix test: the literal `pat` matches (ignoring case)
at the start of `s`. -/
def ciStartsWith : Str → Str → Bool
  | [], _ => true
  | _ :: _, [] => false
  | p :: ps, c :: cs => (p.toLower == c.toLower) && ciStartsWith ps cs

/-- The lookbehind `(?<!\w)`: the character before the match (if any) is not a
word character.  `none` means the match is at the start of the string. -/
def noWordBefore : Option Char → Bool
  | none => true
  | some c => !(isWordChar c)

/-- The lookahead `(?!\w)`: the string continuing after the match does not
start with a word character. -/
def noWordAfter : Str → Bool
  | [] => true
  | c :: _ => !(isWordChar c)

/-- Python `str.strip()`: remove leading and trailing whitespace (ASCII model). -/
def pyStrip (s : Str) : Str :=
  ((s.dropWhile Char.isWhitespace).reverse.dropWhile Char.isWhitespace).reverse

/-- The function `canonical` from `keyword_matcher.py`: strip then lowercase. -/
def canonical (s : Str) : Str := lowerStr (pyStrip s)

/-- A character of the flexible-separator class `SEP` (whitespace, dash,
slash, underscore, dot). -/
def isSepChar (c : Char) : Bool :=
  c.isWhitespace || c == '-' || c == '/' || c == '_' || c == '.'

/-- Test that the string contains at least one non-separator character. -/
def hasNonSep (s : Str) : Bool := s.any (fun c => !isSepChar c)

/-- Test that the string contains a separator character (the separator
search of `term_variants`). -/
def hasSep (s : Str) : Bool := s.any isSepChar

/-- Length of the maximal run of separator-class characters at the front. -/
def sepRun (s : Str) : Nat := (s.takeWhile isSepChar).length

/-- Length of the maximal run of whitespace characters at the front. -/
def wsRun (s : Str) : Nat := (s.takeWhile Char.isWhitespace).length

/-- Python `re.split` on one-or-more separator-class chars: split on maximal
nonempty separator runs.
A leading (resp. trailing) run contributes a leading (resp. trailing) empty
token; interior tokens are nonempty; `splitToks [] = [[]]`.  A separator
followed by another separator belongs to the same run and adds no boundary. -/
def splitToks : Str → List Str
  | [] => [[]]
  | c :: rest =>
    if isSepChar c then
      match rest with
      | r :: _ => if isSepChar r then splitToks rest else [] :: splitToks rest
      | [] => [] :: splitToks rest
    else
      match splitToks rest with
      | t :: ts => (c :: t) :: ts
      | [] => [[c]]

/-- The static synonym table `SYNONYMS` of `keyword_matcher.py`
(keys are lowercase canonical forms). -/
def SYNONYMS : List (Str × List Str) :=
  [ ("gcp".data, ["google cloud".data, "google cloud platform".data]),
    ("aws".data, ["amazon web services".data]),
    ("azure devops".data, ["azure boards".data, "ado".data]),
    ("node.js".data, ["nodejs".data, "node js".data]),
    (".net".data, ["dotnet".data, "dot net".data]),
    ("power bi".data, ["powerbi".data, "pbi".data]),
    ("ms office".data, ["microsoft office".data, "office 365".data, "office365".data]),
    ("postgresql".data, ["postgres".data]),
    ("ci/cd".data, ["cicd".data, "ci cd".data]),
    ("google bigquery".data, ["bigquery".data, "gcp bigquery".data]),
    ("etl".data, ["extract transform load".data]),
    ("pix4d".data, ["pix 4d".data, "pix-4d".data]),
    ("arcgis".data, ["arc gis".data, "arc-gis".data]),
    ("qgis".data, ["q gis".data, "q-gis".data]),
    ("iam".data, ["identity and access management".data]) ]

/-- Table lookup `SYNONYMS.get(t, [])`. -/
def synLookup (t : Str) : List Str := (SYNONYMS.lookup t).getD []

/-- A compiled matching pattern for one variant of a term, as built by
`compile_patterns_for_term`:
* `lit s`   — `re.escape(v)`: the literal string `v`, matched case-insensitively;
* `flex ts` — `_token_sep_variant`: the escaped tokens `ts` joined by the
  flexible separator fragment (zero or more separator-class chars);
* `wsj ts`  — the escaped tokens `ts` joined by `\s+`.
All three are wrapped in `(?i)(?<!\w) … (?!\w)` by the compiler.  The code's
dispatch on whether the variant string contains a backslash escape classifies
exactly the `flex`/`wsj` fragments as prebuilt patterns, provided the term
itself contains no backslash (all table entries are backslash-free); theorems
about arbitrary terms carry that proviso. -/
inductive Variant where
  | lit (s : Str)
  | flex (toks : List Str)
  | wsj (toks : List Str)
deriving DecidableEq, Repr

/-- Lowercasing a variant, used for the case-insensitive de-duplication of
`term_variants`. -/
def variantLower : Variant → Variant
  | .lit s => .lit (lowerStr s)
  | .flex ts => .flex (ts.map lowerStr)
  | .wsj ts => .wsj (ts.map lowerStr)

/-- De-duplicate, keeping the first occurrence, comparing case-insensitively
(the `seen`/`out` loop at the end of `term_variants`). -/
def dedupVariants (vs : List Variant) : List Variant :=
  vs.foldl
    (fun acc v =>
      if acc.any (fun u => variantLower u == variantLower v) then acc
      else acc ++ [v])
    []

/-- The function `term_variants(t)` for a canonical (lowercased, trimmed) term `t`:
the term itself, its table synonyms, and — for every one of those that
contains a separator character — the flexible-separator variant and the
mandatory-whitespace variant, de-duplicated case-insensitively.  Fused with
`compile_patterns_for_term`, which turns each variant string into a compiled
pattern. -/
def term_variants (t : Str) : List Variant :=
  let bases := t :: synLookup t
  let lits := bases.map Variant.lit
  let flexes := (bases.filter hasSep).flatMap
    (fun b => [Variant.flex (splitToks b), Variant.wsj (splitToks b)])
  dedupVariants (lits ++ flexes)

/-- The function `compile_patterns_for_term(term)`: one compiled pattern per variant, in
variant order (the `(?i)(?<!\w)…(?!\w)` wrapping lives in the matching
functions below). -/
def compile_patterns_for_term (t : Str) : List Variant := term_variants t

/-- Backtracking matcher for the tail of a flexible variant: the regex
fragment `(SEPSTAR tok)*` for the remaining tokens, followed by the
lookahead `(?!\w)`.  Returns the number of characters consumed.  The star is
greedy, so separator-run lengths are tried from longest to shortest, exactly
as the backtracking regex engine does. -/
def flexTail : List Str → Str → Option Nat
  | [], rest => if noWordAfter rest then some 0 else none
  | t :: ts, rest =>
    (List.range (sepRun rest + 1)).reverse.findSome? fun j =>
      if ciStartsWith t (rest.drop j) then
        (flexTail ts ((rest.drop j).drop t.length)).map (fun m => j + t.length + m)
      else none

/-- Backtracking matcher for the tail of a `\s+`-joined variant: the fragment
`(\s+ tok)*` for the remaining tokens (each separator run nonempty), followed
by the lookahead `(?!\w)`. -/
def wsTail : List Str → Str → Option Nat
  | [], rest => if noWordAfter rest then some 0 else none
  | t :: ts, rest =>
    ((List.range (wsRun rest)).reverse.map (· + 1)).findSome? fun j =>
      if ciStartsWith t (rest.drop j) then
        (wsTail ts ((rest.drop j).drop t.length)).map (fun m => j + t.length + m)
      else none

/-- Match a variant's pattern at the start of `s` (the position just after the
lookbehind check), returning the number of characters matched, including the
trailing lookahead `(?!\w)`. -/
def variantMatchLen (v : Variant) (s : Str) : Option Nat :=
  match v with
  | .lit t =>
    if ciStartsWith t s && noWordAfter (s.drop t.length) then some t.length else none
  | .flex toks =>
    match toks with
    | [] => none
    | t :: ts =>
      if ciStartsWith t s then (flexTail ts (s.drop t.length)).map (fun m => t.length + m)
      else none
  | .wsj toks =>
    match toks with
    | [] => none
    | t :: ts =>
      if ciStartsWith t s then (wsTail ts (s.drop t.length)).map (fun m => t.length + m)
      else none

/-- The character just before position `i` of `text` (`none` at the start). -/
def prevCharAt (text : Str) (i : Nat) : Option Char :=
  if i = 0 then none else text[i-1]?

/-- The full anchored pattern `(?i)(?<!\w) v (?!\w)` matches at position `i`
of `text`, consuming `L` characters. -/
def matchAtPos (text : Str) (i : Nat) (v : Variant) : Option Nat :=
  if noWordBefore (prevCharAt text i) then variantMatchLen v (text.drop i) else none

/-- The character just before relative position `j` of `s`, where `prev` is
the character just before `s` itself. -/
def prevOf (prev : Option Char) (s : Str) (j : Nat) : Option Char :=
  if j = 0 then prev else s[j-1]?

/-- A variant pattern has "content" when it is forced to consume at least one
character on any match: a nonempty literal, or a token sequence with at least
one nonempty token. -/
def variantHasContent : Variant → Prop
  | .lit s => s ≠ []
  | .flex ts => ∃ tok ∈ ts, tok ≠ []
  | .wsj ts => ∃ tok ∈ ts, tok ≠ []

/-- Python `p.search(text)` for one compiled variant: scan left to right and return
the first (leftmost) match's surface `m.group(0)`, with original casing.
`prev` is the character before the current position. -/
def searchVariant (v : Variant) : Option Char → Str → Option Str
  | prev, [] =>
    match (if noWordBefore prev then variantMatchLen v [] else none) with
    | some L => some (([] : Str).take L)
    | none => none
  | prev, c :: rest =>
    match (if noWordBefore prev then variantMatchLen v (c :: rest) else none) with
    | some L => some ((c :: rest).take L)
    | none => searchVariant v (some c) rest

/-- The function `any_match_with_surface(text, patterns)`: return the first matched surface
string, or `""` if no pattern matches.  Note that an empty match (`m` truthy
with `m.group(0) == ""`) makes the loop return `""` immediately. -/
def anyMatchWithSurface (text : Str) : List Variant → Str
  | [] => []
  | v :: vs =>
    match searchVariant v none text with
    | some s => s
    | none => anyMatchWithSurface text vs

/-- In-place update of an association list (Python `dict` assignment). -/
def updateAssoc (l : List (Str × Str)) (k v : Str) : List (Str × Str) :=
  match l with
  | [] => [(k, v)]
  | (k0, v0) :: rest =>
    if k0 = k then (k0, v) :: rest else (k0, v0) :: updateAssoc rest k v

/-- One iteration of the loop of `present_missing_with_surface`. -/
def pmStep (text : Str) (acc : Finset Str × Finset Str × List (Str × Str)) (raw : Str) :
    Finset Str × Finset Str × List (Str × Str) :=
  let t := canonical raw
  if t = [] then acc
  else
    let surface := anyMatchWithSurface text (compile_patterns_for_term t)
    if surface = [] then (acc.1, insert t acc.2.1, acc.2.2)
    else (insert t acc.1, acc.2.1, updateAssoc acc.2.2 t surface)

/-- Python synonym dictionaries (role-aware aliases), as passed to the
`synonyms` parameter. -/
abbrev SynDict := List (Str × List Str)

/-- The function `present_missing_with_surface(text, terms, synonyms=None)`: the optional
`synonyms` argument is accepted but never read by the body. -/
def present_missing_with_surface (text : Str) (terms : List Str)
    (synonyms : Option SynDict) : Finset Str × Finset Str × List (Str × Str) :=
  let _ := synonyms
  terms.foldl (pmStep text) (∅, ∅, [])

/-! ### The highlighter (`app.py`) -/

/-- The function `_escape`: replace the ampersand by its entity, then the angle brackets by
theirs.  Since the entity text introduced for one character never contains a
character replaced later, the three sequential `str.replace` calls coincide
with this single character-wise map. -/
def escChar (c : Char) : Str :=
  if c == '&' then "&amp;".data
  else if c == '<' then "&lt;".data
  else if c == '>' then "&gt;".data
  else [c]

/-- The full escaper `_escape(text)`. -/
def escapeHtml (s : Str) : Str := s.flatMap escChar

/-- Keep the first occurrence of every string (`set(...)` linearized in
first-seen order; the subsequent stable sort makes the choice of order among
equal-length elements irrelevant to the matcher's output). -/
def dedupFirst (ts : List Str) : List Str :=
  ts.foldl (fun acc t => if t ∈ acc then acc else acc ++ [t]) []

/-- Insert into a list sorted by decreasing length, before the first element
that is not strictly longer (stable, longest first). -/
def insertByLen (t : Str) : List Str → List Str
  | [] => [t]
  | u :: us => if t.length < u.length then u :: insertByLen t us else t :: u :: us

/-- Python `sorted` by length, reversed: stable sort by decreasing length. -/
def sortByLenDesc (ts : List Str) : List Str := ts.foldr insertByLen []

/-- The function `_compile_terms(terms)`: drop falsy (empty) terms, de-duplicate, sort
longest first.  The result is the ordered alternation list of the compiled
pattern `(?i)(?<!\w)(?:t1|t2|...)(?!\w)` (every term re-escaped, hence
literal); an empty list plays the role of Python's `None`. -/
def _compile_terms (terms : List Str) : List Str :=
  sortByLenDesc (dedupFirst (terms.filter (fun t => t ≠ [])))

/-- One alternative of the compiled alternation matches at the current point:
lookbehind, case-insensitive literal, lookahead. -/
def altMatchesHere (prev : Option Char) (t : Str) (s : Str) : Bool :=
  noWordBefore prev && ciStartsWith t s && noWordAfter (s.drop t.length)

/-- The alternation's match at the current point: the first alternative (in
list order, i.e. longest first) that matches, as the backtracking engine
tries them. -/
def firstAltMatch (terms : List Str) (prev : Option Char) (s : Str) : Option Str :=
  terms.find? (fun t => altMatchesHere prev t s)

/-- Format the `n`-th placeholder token: at-at-H, the decimal of `n`, at-at. -/
def placeholder (n : Nat) : Str := "@@H".data ++ (Nat.repr n).data ++ "@@".data

/-- The recorded markup for one match:
`<span class="hl CLS">` ++ escaped token ++ `</span>`. -/
def spanMarkup (cls : Str) (token : Str) : Str :=
  "<span class=".data ++ ['"'] ++ "hl ".data ++ cls ++ ['"', '>']
    ++ escapeHtml token ++ "</span>".data

/-- The substitution `regex.sub` inside `wrap`: scan left to right; at each
position, if the alternation matches, emit the placeholder numbered by the
current length of `repl`, record `(placeholder, markup)`, and continue after
the match; otherwise copy the character.  `prev` is the previous character of
the string being scanned (the lookbehind context). -/
def wrapScanF (terms : List Str) (cls : Str) :
    Nat → Option Char → Str → List (Str × Str) → Str × List (Str × Str)
  | _, _, [], repl => ([], repl)
  | 0, _, _ :: _, repl => ([], repl)
  | fuel + 1, prev, c :: rest, repl =>
    match firstAltMatch terms prev (c :: rest) with
    | some t =>
      let L := max 1 t.length
      let token := (c :: rest).take L
      let ph := placeholder repl.length
      let out := wrapScanF terms cls fuel token.getLast? ((c :: rest).drop L)
        (repl ++ [(ph, spanMarkup cls token)])
      (ph ++ out.1, out.2)
    | none =>
      let out := wrapScanF terms cls fuel (some c) rest repl
      (c :: out.1, out.2)

/-- The scan of `regex.sub`, started with fuel equal to the string length
(every step consumes at least one character, so the fuel never runs out). -/
def wrapScan (terms : List Str) (cls : Str) (prev : Option Char) (s : Str)
    (repl : List (Str × Str)) : Str × List (Str × Str) :=
  wrapScanF terms cls s.length prev s repl

/-- One `wrap(_compile_terms(bucket), cls)` pass: a no-op when the bucket compiles to
no pattern. -/
def wrapBucket (bucket : List Str) (cls : Str) (st : Str × List (Str × Str)) :
    Str × List (Str × Str) :=
  let ts := _compile_terms bucket
  if ts = [] then st else wrapScan ts cls none st.1 st.2

/-- Python `str.replace(pat, sub)`: replace every (leftmost, non-overlapping)
occurrence. -/
def replaceAllF (pat sub : Str) : Nat → Str → Str
  | _, [] => []
  | 0, s => s
  | fuel + 1, c :: rest =>
    if pat ≠ [] ∧ pat.isPrefixOf (c :: rest) then
      sub ++ replaceAllF pat sub fuel ((c :: rest).drop pat.length)
    else c :: replaceAllF pat sub fuel rest

/-- Python `str.replace`, started with fuel equal to the string length (every step
consumes at least one character of the scanned string). -/
def replaceAll (pat sub : Str) (s : Str) : Str := replaceAllF pat sub s.length s

/-- The function `_highlight(text, good, critical, medium, low)`: escape the text, run the
placeholder pass for each bucket in the fixed order critical → medium → low →
good, then substitute every recorded placeholder by its markup, in recording
order. -/
def _highlight (text : Str) (good critical medium low : List Str) : Str :=
  let st0 := (escapeHtml text, ([] : List (Str × Str)))
  let st1 := wrapBucket critical "hl-critical".data st0
  let st2 := wrapBucket medium "hl-medium".data st1
  let st3 := wrapBucket low "hl-low".data st2
  let st4 := wrapBucket good "hl-good".data st3
  st4.2.foldl (fun h pr => replaceAll pr.1 pr.2 h) st4.1

/-- Check that every ampersand in a string begins one of the three entities
the escaper can produce.  This holds of any correctly escaped document
fragment: `_escape` output satisfies it, and the markup the highlighter is
supposed to insert around escaped tokens preserves it. -/
def ampEscapedOk : Str → Bool
  | [] => true
  | c :: rest =>
    (c != '&'
      || "amp;".data.isPrefixOf rest
      || "lt;".data.isPrefixOf rest
      || "gt;".data.isPrefixOf rest)
    && ampEscapedOk rest

/-- Test whether `pat` occurs as a contiguous (case-sensitive) substring of `s`. -/
def containsSub (pat : Str) : Str → Bool
  | [] => pat.isEmpty
  | c :: rest => pat.isPrefixOf (c :: rest) || containsSub pat rest

/-! ### Scoring (`compute_metrics` and `process_jd_route` in `app.py`,
`priority_skills.py`).  Float arithmetic is modelled exactly over `ℚ`. -/

/-- Python `int(x)` on a rational: truncation toward zero. -/
def ratTrunc (q : ℚ) : ℤ := if 0 ≤ q then ⌊q⌋ else -⌊-q⌋

/-- Python `round(x)` on a rational: round half to even. -/
def pyRound (q : ℚ) : ℤ :=
  if q - ⌊q⌋ < 1/2 then ⌊q⌋
  else if (1:ℚ)/2 < q - ⌊q⌋ then ⌊q⌋ + 1
  else if ⌊q⌋ % 2 = 0 then ⌊q⌋ else ⌊q⌋ + 1

/-- Coverage of a bucket with `p` present and `m` missing terms:
`len(present) / max(1, len(present) + len(missing))`. -/
def bucketCoverage (p m : ℕ) : ℚ := (p : ℚ) / ((max 1 (p + m) : ℕ) : ℚ)

/-- The deterministic scoring block of `compute_metrics` (app.py lines
142–167) as a function of the bucket sizes `pr mr po mo pt mt ps ms`
(present/missing required, optional, technical, soft) and the penalty inputs
`weak` (`len(weak_language_phrases)`) and `low` (`len(low_context_phrases)`):
weighted base score, penalties capped at 70% of the base, truncated by
`int(...)` and clamped by `max(0, min(100, ...))`. -/
def computeMetricsScore (pr mr po mo pt mt ps ms weak low : ℕ) : ℤ :=
  let base : ℚ := 100 *
    ( (1/2) * bucketCoverage pr mr
    + (1/4) * bucketCoverage po mo
    + (1/5) * bucketCoverage pt mt
    + (1/20) * min 1 (bucketCoverage ps ms))
  let totalPenalty : ℚ := (mr : ℚ) * 8 + (weak : ℚ) * 3 + (low : ℚ) * 2
  let cappedPenalty : ℚ := min totalPenalty (base * (7/10))
  max 0 (min 100 (ratTrunc (base - cappedPenalty)))

/-- The set `HIGH_PRIORITY_SKILLS` from `priority_skills.py` (the value returned by
`get_priority_skills`). -/
def HIGH_PRIORITY_SKILLS : List Str :=
  [ "python".data, "java".data, "c++".data, "c#".data, ".net".data,
    "node.js".data, "javascript".data, "typescript".data, "go".data,
    "rust".data, "sql".data, "mysql".data, "postgresql".data, "oracle".data,
    "mongodb".data, "spark".data, "hadoop".data, "aws".data, "azure".data,
    "gcp".data, "google cloud".data, "kubernetes".data, "docker".data,
    "terraform".data, "ansible".data, "pandas".data, "numpy".data,
    "scikit-learn".data, "tensorflow".data, "pytorch".data, "mlops".data,
    "linux".data, "git".data, "ci/cd".data, "jenkins".data, "kafka".data,
    "elastic".data, "elasticsearch".data, "snowflake".data, "power bi".data,
    "tableau".data, "looker".data, "excel".data, "siem".data, "soc".data,
    "iam".data, "okta".data, "splunk".data ]

/-- Case-insensitive substring search: `re.search(re.escape(p), text,
flags=re.IGNORECASE)` is a match of the literal `p` anywhere in `text`. -/
def ciSubstr (pat : Str) : Str → Bool
  | [] => pat.isEmpty
  | c :: rest => ciStartsWith pat (c :: rest) || ciSubstr pat rest

/-- The helper `occurs_any(text, phrases)` from `process_jd_route`: the set of
lowercased stripped phrases that occur (case-insensitively) in the resume
text; empty after stripping is skipped. -/
def occursAny (resume : Str) (phrases : List Str) : Finset Str :=
  phrases.foldl
    (fun acc p =>
      let p2 := pyStrip p
      if p2 = [] then acc
      else if ciSubstr p2 resume then insert (lowerStr p2) acc
      else acc)
    ∅

/-- The deterministic ATS block of `process_jd_route` (app.py lines 352–392)
as a function of the present/missing required and optional sets, the
weak-language and low-context phrase lists, and the resume text: coverage
base `100*(0.65*req + 0.25*opt)`, penalty
`5*critical + 2*max(0, improvements-3) + 1*len(low_matched)` where
`critical` counts missing required terms in the curated priority set and
`improvements` counts weak phrases that occur in the resume, then
`int(max(0, min(100, round(base - penalty))))`. -/
def processJdAtsScore (pr mr po mo : Finset Str) (weakPhrases lowPhrases : List Str)
    (resume : Str) : ℤ :=
  let weakMatched := occursAny resume weakPhrases
  let lowMatched := occursAny resume lowPhrases
  let improvementsCount : ℕ := weakMatched.card
  let criticalCount : ℕ := (mr.filter (fun k => k ∈ HIGH_PRIORITY_SKILLS)).card
  let base : ℚ := 100 * ((13/20) * bucketCoverage pr.card mr.card
    + (1/4) * bucketCoverage po.card mo.card)
  let penalty : ℤ := 5 * (criticalCount : ℤ)
    + 2 * max 0 ((improvementsCount : ℤ) - 3)
    + 1 * (lowMatched.card : ℤ)
  max 0 (min 100 (pyRound (base - (penalty : ℚ))))

/-! ### Spec-side definitions

These follow the wording of the specification / claims, for comparison with
the definitions above (which follow the source). -/

/-- The weighted-coverage score exactly as the spec sentence states it:
`100 × (0.50·required + 0.25·optional + 0.20·technical +
0.05·min(1, soft_present/max(1, soft_present+soft_missing)))`, minus
`min(0.7×base, 8×missing_required + 3×weak_phrases + 2×low_context_phrases)`,
with the result *rounded to the nearest integer* and clamped to [0,100]. -/
def specWeightedScoreRounded (pr mr po mo pt mt ps ms weak low : ℕ) : ℤ :=
  let base : ℚ := 100 *
    ( (1/2) * bucketCoverage pr mr
    + (1/4) * bucketCoverage po mo
    + (1/5) * bucketCoverage pt mt
    + (1/20) * min 1 (bucketCoverage ps ms))
  let pen : ℚ := min ((7/10) * base) (8 * (mr : ℚ) + 3 * (weak : ℚ) + 2 * (low : ℚ))
  max 0 (min 100 (pyRound (base - pen)))

/-- The weighted-coverage score amended to what the code computes: identical
to `specWeightedScoreRounded` except that the result is *truncated toward
zero* (`int(...)`; equivalently floored, the value being nonnegative) rather
than rounded to the nearest integer. -/
def specWeightedScoreTruncated (pr mr po mo pt mt ps ms weak low : ℕ) : ℤ :=
  let base : ℚ := 100 *
    ( (1/2) * bucketCoverage pr mr
    + (1/4) * bucketCoverage po mo
    + (1/5) * bucketCoverage pt mt
    + (1/20) * min 1 (bucketCoverage ps ms))
  let pen : ℚ := min ((7/10) * base) (8 * (mr : ℚ) + 3 * (weak : ℚ) + 2 * (low : ℚ))
  max 0 (min 100 (ratTrunc (base - pen)))

/-- The simplified score exactly as the claim states it:
`round(100×(0.65·required + 0.25·optional) − (5·c + 2·max(0, w−3) + 1·l))`
clamped to [0,100], where `c` counts the missing required terms that belong
to the curated high-priority skill set, `w` counts the weak-language phrases
that actually occur in the resume text, and `l` counts the low-context
phrases that occur there. -/
def specSimplifiedScore (pr mr po mo : Finset Str) (weakPhrases lowPhrases : List Str)
    (resume : Str) : ℤ :=
  let c : ℕ := (mr.filter (fun k => k ∈ HIGH_PRIORITY_SKILLS)).card
  let w : ℕ := (occursAny resume weakPhrases).card
  let l : ℕ := (occursAny resume lowPhrases).card
  max 0 (min 100 (pyRound
    (100 * ((13/20) * bucketCoverage pr.card mr.card
            + (1/4) * bucketCoverage po.card mo.card)
      - (5 * (c : ℚ) + 2 * max 0 ((w : ℚ) - 3) + 1 * (l : ℚ)))))

/-- The claimed presence property of `present_missing_with_surface` for a
single term: the term is reported present exactly when some declared variant
has a (nonempty) anchored match somewhere in the text. -/
def presenceClaim (rawTerm text : Str) : Prop :=
  canonical rawTerm ∈ (present_missing_with_surface text [rawTerm] none).1 ↔
    ∃ v ∈ term_variants (canonical rawTerm), ∃ i L,
      matchAtPos text i v = some L ∧ 0 < L

/-- The claimed surface property: any recorded surface for the term is a
literal substring of the text (with its original casing) at which some
declared variant matches. -/
def surfaceClaim (rawTerm text : Str) : Prop :=
  ∀ s, List.lookup (canonical rawTerm)
      (present_missing_with_surface text [rawTerm] none).2.2 = some s →
    0 < s.length ∧ ∃ v ∈ term_variants (canonical rawTerm), ∃ i,
      s = (text.drop i).take s.length ∧ matchAtPos text i v = some s.length

/-! ### Helper lemmas -/

theorem clampRange (z : ℤ) : 0 ≤ max 0 (min 100 z) ∧ max 0 (min 100 z) ≤ 100 :=
  ⟨le_max_left 0 _, max_le (by norm_num) (min_le_left _ _)⟩

theorem lookup_updateAssoc (l : List (Str × Str)) (k0 v k : Str) :
    List.lookup k (updateAssoc l k0 v) = if k = k0 then some v else List.lookup k l := by
  induction l with
  | nil =>
    by_cases hk : k = k0
    · simp [updateAssoc, List.lookup, hk]
    · have hb : (k == k0) = false := beq_eq_false_iff_ne.mpr hk
      simp [updateAssoc, List.lookup, hb, hk]
  | cons hd tl ih =>
    obtain ⟨a, b⟩ := hd
    by_cases hak : a = k0
    · subst hak
      by_cases hk : k = a
      · simp [updateAssoc, List.lookup, hk]
      · have hb : (k == a) = false := beq_eq_false_iff_ne.mpr hk
        simp [updateAssoc, List.lookup, hb, hk]
    · by_cases hk : k = a
      · have hkk0 : ¬ k = k0 := by rw [hk]; exact hak
        have hb : (k == a) = true := beq_iff_eq.mpr hk
        simp [updateAssoc, if_neg hak, List.lookup, hb, hkk0]
      · have hb : (k == a) = false := beq_eq_false_iff_ne.mpr hk
        simp [updateAssoc, if_neg hak, List.lookup, hb, ih]

theorem pmStep_present_mem (text : Str) (acc : Finset Str × Finset Str × List (Str × Str))
    (raw t : Str) :
    t ∈ (pmStep text acc raw).1 ↔
      t ∈ acc.1 ∨ (canonical raw = t ∧ t ≠ []
        ∧ anyMatchWithSurface text (compile_patterns_for_term t) ≠ []) := by
  unfold pmStep
  by_cases h0 : canonical raw = []
  · simp only [h0, if_pos rfl]
    constructor
    · exact Or.inl
    · rintro (h | ⟨rfl, hne, _⟩)
      · exact h
      · exact absurd rfl hne
  · simp only [if_neg h0]
    by_cases hsurf : anyMatchWithSurface text (compile_patterns_for_term (canonical raw)) = []
    · simp only [hsurf, if_pos rfl]
      constructor
      · exact Or.inl
      · rintro (h | ⟨rfl, _, hne⟩)
        · exact h
        · exact absurd hsurf hne
    · simp only [if_neg hsurf, Finset.mem_insert]
      constructor
      · rintro (rfl | h)
        · exact Or.inr ⟨rfl, h0, hsurf⟩
        · exact Or.inl h
      · rintro (h | ⟨rfl, _, _⟩)
        · exact Or.inr h
        · exact Or.inl rfl

theorem pm_foldl_present_mem (text : Str) (terms : List Str)
    (acc : Finset Str × Finset Str × List (Str × Str)) (t : Str) :
    t ∈ (terms.foldl (pmStep text) acc).1 ↔
      t ∈ acc.1 ∨ ∃ raw ∈ terms, canonical raw = t ∧ t ≠ []
        ∧ anyMatchWithSurface text (compile_patterns_for_term t) ≠ [] := by
  induction terms generalizing acc with
  | nil => simp
  | cons hd tl ih =>
    simp only [List.foldl_cons, ih, pmStep_present_mem, List.mem_cons]
    constructor
    · rintro ((h | h) | ⟨raw, hraw, h⟩)
      · exact Or.inl h
      · exact Or.inr ⟨hd, Or.inl rfl, h⟩
      · exact Or.inr ⟨raw, Or.inr hraw, h⟩
    · rintro (h | ⟨raw, (rfl | hraw), h⟩)
      · exact Or.inl (Or.inl h)
      · exact Or.inl (Or.inr h)
      · exact Or.inr ⟨raw, hraw, h⟩

theorem pmStep_empty_free (text : Str) (acc : Finset Str × Finset Str × List (Str × Str))
    (raw : Str)
    (h : ([] : Str) ∉ acc.1 ∧ ([] : Str) ∉ acc.2.1 ∧ List.lookup ([] : Str) acc.2.2 = none) :
    ([] : Str) ∉ (pmStep text acc raw).1 ∧ ([] : Str) ∉ (pmStep text acc raw).2.1
      ∧ List.lookup ([] : Str) (pmStep text acc raw).2.2 = none := by
  unfold pmStep
  by_cases h0 : canonical raw = []
  · simpa [h0] using h
  · simp only [if_neg h0]
    by_cases hsurf : anyMatchWithSurface text (compile_patterns_for_term (canonical raw)) = []
    · simp only [hsurf, if_pos rfl]
      exact ⟨h.1, by simp [Finset.mem_insert, Ne.symm h0, h.2.1], h.2.2⟩
    · simp only [if_neg hsurf]
      refine ⟨by simp [Finset.mem_insert, Ne.symm h0, h.1], h.2.1, ?_⟩
      rw [lookup_updateAssoc, if_neg (Ne.symm h0)]
      exact h.2.2

theorem pm_foldl_empty_free (text : Str) (terms : List Str)
    (acc : Finset Str × Finset Str × List (Str × Str))
    (h : ([] : Str) ∉ acc.1 ∧ ([] : Str) ∉ acc.2.1 ∧ List.lookup ([] : Str) acc.2.2 = none) :
    ([] : Str) ∉ (terms.foldl (pmStep text) acc).1
      ∧ ([] : Str) ∉ (terms.foldl (pmStep text) acc).2.1
      ∧ List.lookup ([] : Str) (terms.foldl (pmStep text) acc).2.2 = none := by
  induction terms generalizing acc with
  | nil => exact h
  | cons hd tl ih => exact ih _ (pmStep_empty_free text acc hd h)

theorem findSome?_some_inv {α β : Type} (f : α → Option β) :
    ∀ (l : List α) (b : β), l.findSome? f = some b → ∃ a ∈ l, f a = some b := by
  intro l
  induction l with
  | nil => intro b h; simp [List.findSome?_nil] at h
  | cons x xs ih =>
    intro b h
    rw [List.findSome?_cons] at h
    cases hx : f x with
    | some y =>
      rw [hx] at h
      exact ⟨x, List.mem_cons_self x xs, hx.trans h⟩
    | none =>
      rw [hx] at h
      obtain ⟨a, ha, hfa⟩ := ih b h
      exact ⟨a, List.mem_cons_of_mem x ha, hfa⟩

theorem ciStartsWith_le : ∀ t s : Str, ciStartsWith t s = true → t.length ≤ s.length
  | [], _, _ => by simp
  | _ :: _, [], h => by simp [ciStartsWith] at h
  | p :: ps, c :: cs, h => by
    simp only [ciStartsWith, Bool.and_eq_true] at h
    simpa using Nat.succ_le_succ (ciStartsWith_le ps cs h.2)

theorem flexTail_le : ∀ (ts : List Str) (rest : Str) (m : Nat),
    flexTail ts rest = some m → m ≤ rest.length := by
  intro ts
  induction ts with
  | nil =>
    intro rest m h
    simp only [flexTail] at h
    split at h
    · simp only [Option.some.injEq] at h
      omega
    · simp at h
  | cons t ts ih =>
    intro rest m h
    simp only [flexTail] at h
    obtain ⟨j, hj, hfj⟩ := findSome?_some_inv _ _ _ h
    simp only [List.mem_reverse, List.mem_range] at hj
    split at hfj
    · obtain ⟨m1, hm1, hm1e⟩ := Option.map_eq_some'.mp hfj
      have h1 := ih _ _ hm1
      have h2 := ciStartsWith_le t (rest.drop j) (by assumption)
      have h3 : (sepRun rest) ≤ rest.length := (List.takeWhile_sublist _).length_le
      simp only [List.length_drop] at h1 h2
      omega
    · simp at hfj

theorem wsTail_le : ∀ (ts : List Str) (rest : Str) (m : Nat),
    wsTail ts rest = some m → m ≤ rest.length := by
  intro ts
  induction ts with
  | nil =>
    intro rest m h
    simp only [wsTail] at h
    split at h
    · simp only [Option.some.injEq] at h
      omega
    · simp at h
  | cons t ts ih =>
    intro rest m h
    simp only [wsTail] at h
    obtain ⟨j, hj, hfj⟩ := findSome?_some_inv _ _ _ h
    simp only [List.mem_map, List.mem_reverse, List.mem_range] at hj
    obtain ⟨j0, hj0, rfl⟩ := hj
    split at hfj
    · obtain ⟨m1, hm1, hm1e⟩ := Option.map_eq_some'.mp hfj
      have h1 := ih _ _ hm1
      have h2 := ciStartsWith_le t (rest.drop (j0 + 1)) (by assumption)
      have h3 : wsRun rest ≤ rest.length := (List.takeWhile_sublist _).length_le
      simp only [List.length_drop] at h1 h2
      omega
    · simp at hfj

theorem variantMatchLen_le (v : Variant) :
    ∀ (s : Str) (L : Nat), variantMatchLen v s = some L → L ≤ s.length := by
  intro s L h
  cases v with
  | lit t =>
    simp only [variantMatchLen, Bool.and_eq_true] at h
    split at h
    · rename_i hcond
      have := ciStartsWith_le t s hcond.1
      simp only [Option.some.injEq] at h
      omega
    · simp at h
  | flex toks =>
    cases toks with
    | nil => simp [variantMatchLen] at h
    | cons t ts =>
      simp only [variantMatchLen] at h
      split at h
      · obtain ⟨m1, hm1, hm1e⟩ := Option.map_eq_some'.mp h
        have h1 := flexTail_le ts _ _ hm1
        have h2 := ciStartsWith_le t s (by assumption)
        simp only [List.length_drop] at h1
        omega
      · simp at h
  | wsj toks =>
    cases toks with
    | nil => simp [variantMatchLen] at h
    | cons t ts =>
      simp only [variantMatchLen] at h
      split at h
      · obtain ⟨m1, hm1, hm1e⟩ := Option.map_eq_some'.mp h
        have h1 := wsTail_le ts _ _ hm1
        have h2 := ciStartsWith_le t s (by assumption)
        simp only [List.length_drop] at h1
        omega
      · simp at h

theorem flexTail_pos : ∀ (ts : List Str) (rest : Str) (m : Nat),
    flexTail ts rest = some m → (∃ tok ∈ ts, tok ≠ []) → 0 < m := by
  intro ts
  induction ts with
  | nil => intro rest m _ hex; simp at hex
  | cons t ts ih =>
    intro rest m h hex
    simp only [flexTail] at h
    obtain ⟨j, _, hfj⟩ := findSome?_some_inv _ _ _ h
    split at hfj
    · obtain ⟨m1, hm1, hm1e⟩ := Option.map_eq_some'.mp hfj
      obtain ⟨tok, htok, hne⟩ := hex
      rcases List.mem_cons.mp htok with rfl | htl
      · have : 0 < tok.length := List.length_pos.mpr hne
        omega
      · have := ih _ _ hm1 ⟨tok, htl, hne⟩
        omega
    · simp at hfj

theorem wsTail_pos : ∀ (ts : List Str) (rest : Str) (m : Nat),
    wsTail ts rest = some m → (∃ tok ∈ ts, tok ≠ []) → 0 < m := by
  intro ts
  induction ts with
  | nil => intro rest m _ hex; simp at hex
  | cons t ts ih =>
    intro rest m h hex
    simp only [wsTail] at h
    obtain ⟨j, hj, hfj⟩ := findSome?_some_inv _ _ _ h
    simp only [List.mem_map, List.mem_reverse, List.mem_range] at hj
    obtain ⟨j0, _, rfl⟩ := hj
    split at hfj
    · obtain ⟨m1, hm1, hm1e⟩ := Option.map_eq_some'.mp hfj
      omega
    · simp at hfj

theorem variantMatchLen_pos (v : Variant) (hc : variantHasContent v) :
    ∀ (s : Str) (L : Nat), variantMatchLen v s = some L → 0 < L := by
  intro s L h
  cases v with
  | lit t =>
    simp only [variantMatchLen, Bool.and_eq_true] at h
    split at h
    · have ht : t ≠ [] := hc
      have := List.length_pos.mpr ht
      simp only [Option.some.injEq] at h
      omega
    · simp at h
  | flex toks =>
    cases toks with
    | nil => simp [variantMatchLen] at h
    | cons t ts =>
      simp only [variantMatchLen] at h
      split at h
      · obtain ⟨m1, hm1, hm1e⟩ := Option.map_eq_some'.mp h
        obtain ⟨tok, htok, hne⟩ := (hc : ∃ tok ∈ t :: ts, tok ≠ [])
        rcases List.mem_cons.mp htok with rfl | htl
        · have : 0 < tok.length := List.length_pos.mpr hne
          omega
        · have := flexTail_pos ts _ _ hm1 ⟨tok, htl, hne⟩
          omega
      · simp at h
  | wsj toks =>
    cases toks with
    | nil => simp [variantMatchLen] at h
    | cons t ts =>
      simp only [variantMatchLen] at h
      split at h
      · obtain ⟨m1, hm1, hm1e⟩ := Option.map_eq_some'.mp h
        obtain ⟨tok, htok, hne⟩ := (hc : ∃ tok ∈ t :: ts, tok ≠ [])
        rcases List.mem_cons.mp htok with rfl | htl
        · have : 0 < tok.length := List.length_pos.mpr hne
          omega
        · have := wsTail_pos ts _ _ hm1 ⟨tok, htl, hne⟩
          omega
      · simp at h

theorem hasNonSep_ne_nil (s : Str) (h : hasNonSep s = true) : s ≠ [] := by
  intro hs
  subst hs
  simp [hasNonSep] at h

theorem mem_dedupVariants_foldl (vs : List Variant) :
    ∀ (acc : List Variant) (v : Variant),
      v ∈ vs.foldl
        (fun acc v =>
          if acc.any (fun u => variantLower u == variantLower v) then acc
          else acc ++ [v]) acc →
      v ∈ acc ∨ v ∈ vs := by
  induction vs with
  | nil => intro acc v h; exact Or.inl h
  | cons u vs ih =>
    intro acc v h
    simp only [List.foldl_cons] at h
    rcases ih _ v h with hacc | hvs
    · by_cases hdup : acc.any (fun w => variantLower w == variantLower u) = true
      · rw [if_pos hdup] at hacc
        exact Or.inl hacc
      · rw [if_neg hdup] at hacc
        rcases List.mem_append.mp hacc with h1 | h2
        · exact Or.inl h1
        · exact Or.inr (List.mem_cons.mpr (Or.inl (List.mem_singleton.mp h2)))
    · exact Or.inr (List.mem_cons_of_mem u hvs)

theorem mem_dedupVariants (vs : List Variant) (v : Variant) (h : v ∈ dedupVariants vs) :
    v ∈ vs := by
  rcases mem_dedupVariants_foldl vs [] v h with h0 | h1
  · simp at h0
  · exact h1

theorem lookup_pair_mem (l : List (Str × List Str)) (k : Str) (vs : List Str)
    (h : List.lookup k l = some vs) : (k, vs) ∈ l := by
  induction l with
  | nil => simp [List.lookup] at h
  | cons hd tl ih =>
    obtain ⟨a, b⟩ := hd
    by_cases hk : k = a
    · subst hk
      simp only [List.lookup, beq_self_eq_true, Option.some.injEq] at h
      exact h ▸ List.mem_cons_self _ _
    · have hb : (k == a) = false := beq_eq_false_iff_ne.mpr hk
      simp only [List.lookup, hb] at h
      exact List.mem_cons_of_mem _ (ih h)

theorem synonyms_vals_nonsep : ∀ p ∈ SYNONYMS, ∀ s ∈ p.2, hasNonSep s = true := by
  decide

theorem synLookup_nonsep (t : Str) : ∀ b ∈ synLookup t, hasNonSep b = true := by
  intro b hb
  unfold synLookup at hb
  cases hl : List.lookup t SYNONYMS with
  | none => rw [hl] at hb; simp at hb
  | some vs =>
    rw [hl] at hb
    simp only [Option.getD_some] at hb
    exact synonyms_vals_nonsep _ (lookup_pair_mem _ _ _ hl) b hb

theorem splitToks_ne_nil : ∀ s : Str, splitToks s ≠ [] := by
  intro s
  induction s with
  | nil => simp [splitToks]
  | cons c rest ih =>
    simp only [splitToks]
    by_cases hc : isSepChar c = true
    · rw [if_pos hc]
      cases rest with
      | nil => simp
      | cons r rs =>
        show (if isSepChar r = true then splitToks (r :: rs)
          else [] :: splitToks (r :: rs)) ≠ []
        by_cases hr : isSepChar r = true
        · rw [if_pos hr]; exact ih
        · rw [if_neg hr]; simp
    · rw [if_neg hc]
      cases hsp : splitToks rest with
      | nil => exact absurd hsp ih
      | cons x xs => simp

theorem splitToks_has_nonempty :
    ∀ s : Str, hasNonSep s = true → ∃ tok ∈ splitToks s, tok ≠ [] := by
  intro s
  induction s with
  | nil => intro h; simp [hasNonSep] at h
  | cons c rest ih =>
    intro h
    simp only [splitToks]
    by_cases hc : isSepChar c = true
    · have hrest : hasNonSep rest = true := by
        simp only [hasNonSep, List.any_cons, hc, Bool.not_true, Bool.false_or] at h
        exact h
      obtain ⟨tok, htok, hne⟩ := ih hrest
      rw [if_pos hc]
      cases rest with
      | nil => simp [hasNonSep] at hrest
      | cons r rs =>
        show ∃ tok ∈ (if isSepChar r = true then splitToks (r :: rs)
          else [] :: splitToks (r :: rs)), tok ≠ []
        by_cases hr : isSepChar r = true
        · rw [if_pos hr]
          exact ⟨tok, htok, hne⟩
        · rw [if_neg hr]
          exact ⟨tok, List.mem_cons_of_mem _ htok, hne⟩
    · rw [if_neg hc]
      cases hsp : splitToks rest with
      | nil => exact absurd hsp (splitToks_ne_nil rest)
      | cons x xs =>
        exact ⟨c :: x, List.mem_cons_self _ _, by simp⟩

theorem term_variants_content (t : Str) (ht : hasNonSep t = true) :
    ∀ v ∈ term_variants t, variantHasContent v := by
  intro v hv
  have hbase : ∀ b, b = t ∨ b ∈ synLookup t → hasNonSep b = true := by
    rintro b (rfl | hb)
    · exact ht
    · exact synLookup_nonsep t b hb
  have hv' := mem_dedupVariants _ _ hv
  rcases List.mem_append.mp hv' with hlit | hflex
  · obtain ⟨b, hb, rfl⟩ := List.mem_map.mp hlit
    have : hasNonSep b = true := hbase b (by simpa using List.mem_cons.mp hb)
    exact hasNonSep_ne_nil b this
  · obtain ⟨b, hb, hvin⟩ := List.mem_flatMap.mp hflex
    have hbm := List.mem_filter.mp hb
    have hbs : hasNonSep b = true := hbase b (by simpa using List.mem_cons.mp hbm.1)
    have htoks := splitToks_has_nonempty b hbs
    rcases List.mem_cons.mp hvin with rfl | hvin2
    · exact htoks
    · rcases List.mem_cons.mp hvin2 with rfl | hvin3
      · exact htoks
      · simp at hvin3

theorem prevOf_none_eq_prevCharAt (text : Str) (j : Nat) :
    prevOf none text j = prevCharAt text j := rfl

theorem prevOf_cons_succ (prev : Option Char) (c : Char) (rest : Str) (j : Nat) :
    prevOf prev (c :: rest) (j + 1) = prevOf (some c) rest j := by
  unfold prevOf
  cases j with
  | zero => simp
  | succ j0 => simp

theorem searchVariant_some_inv (v : Variant) :
    ∀ (s : Str) (prev : Option Char) (out : Str), searchVariant v prev s = some out →
      ∃ j L, j ≤ s.length ∧ noWordBefore (prevOf prev s j) = true
        ∧ variantMatchLen v (s.drop j) = some L ∧ out = (s.drop j).take L := by
  intro s
  induction s with
  | nil =>
    intro prev out h
    simp only [searchVariant] at h
    cases hm : (if noWordBefore prev then variantMatchLen v [] else none) with
    | none => rw [hm] at h; simp at h
    | some L =>
      rw [hm] at h
      simp only [Option.some.injEq] at h
      by_cases hw : noWordBefore prev = true
      · rw [if_pos hw] at hm
        exact ⟨0, L, by simp, hw, by simpa using hm, by simp [h.symm]⟩
      · rw [if_neg hw] at hm
        exact absurd hm (by simp)
  | cons c rest ih =>
    intro prev out h
    simp only [searchVariant] at h
    cases hm : (if noWordBefore prev then variantMatchLen v (c :: rest) else none) with
    | some L =>
      rw [hm] at h
      simp only [Option.some.injEq] at h
      by_cases hw : noWordBefore prev = true
      · rw [if_pos hw] at hm
        exact ⟨0, L, by simp, hw, by simpa using hm, by simp [h.symm]⟩
      · rw [if_neg hw] at hm
        exact absurd hm (by simp)
    | none =>
      rw [hm] at h
      obtain ⟨j, L, hj, hw, hmatch, hout⟩ := ih (some c) out h
      refine ⟨j + 1, L, by simpa using Nat.succ_le_succ hj, ?_, ?_, ?_⟩
      · rw [prevOf_cons_succ]
        exact hw
      · simpa using hmatch
      · simpa using hout

theorem searchVariant_none_inv (v : Variant) :
    ∀ (s : Str) (prev : Option Char), searchVariant v prev s = none →
      ∀ j, j ≤ s.length → noWordBefore (prevOf prev s j) = true →
        variantMatchLen v (s.drop j) = none := by
  intro s
  induction s with
  | nil =>
    intro prev h j hj hw
    have hj0 : j = 0 := by simpa using hj
    subst hj0
    simp only [searchVariant] at h
    have hw0 : noWordBefore prev = true := hw
    rw [if_pos hw0] at h
    cases hm : variantMatchLen v ([] : Str) with
    | none => simpa using hm
    | some L => rw [hm] at h; simp at h
  | cons c rest ih =>
    intro prev h j hj hw
    simp only [searchVariant] at h
    cases hm : (if noWordBefore prev then variantMatchLen v (c :: rest) else none) with
    | some L => rw [hm] at h; simp at h
    | none =>
      rw [hm] at h
      cases j with
      | zero =>
        have hw0 : noWordBefore prev = true := hw
        rw [if_pos hw0] at hm
        simpa using hm
      | succ j0 =>
        rw [prevOf_cons_succ] at hw
        have := ih (some c) h j0 (by simpa using Nat.succ_le_succ_iff.mp hj) hw
        simpa using this

theorem anyMatch_some_inv (text : Str) :
    ∀ (pats : List Variant) (s : Str), anyMatchWithSurface text pats = s → s ≠ [] →
      ∃ v ∈ pats, searchVariant v none text = some s := by
  intro pats
  induction pats with
  | nil =>
    intro s h hne
    simp only [anyMatchWithSurface] at h
    subst h
    exact absurd rfl hne
  | cons v vs ih =>
    intro s h hne
    simp only [anyMatchWithSurface] at h
    cases hv : searchVariant v none text with
    | some s0 =>
      rw [hv] at h
      exact ⟨v, List.mem_cons_self _ _, h ▸ hv⟩
    | none =>
      rw [hv] at h
      obtain ⟨w, hw, hws⟩ := ih s h hne
      exact ⟨w, List.mem_cons_of_mem _ hw, hws⟩

theorem anyMatch_nil_inv (text : Str) :
    ∀ (pats : List Variant),
      (∀ v ∈ pats, ∀ out, searchVariant v none text = some out → out ≠ []) →
      anyMatchWithSurface text pats = [] →
      ∀ v ∈ pats, searchVariant v none text = none := by
  intro pats
  induction pats with
  | nil => intro _ _ v hv; simp at hv
  | cons u vs ih =>
    intro hpos h v hv
    simp only [anyMatchWithSurface] at h
    cases hu : searchVariant u none text with
    | some s0 =>
      rw [hu] at h
      exact absurd h (hpos u (List.mem_cons_self _ _) s0 hu)
    | none =>
      rw [hu] at h
      rcases List.mem_cons.mp hv with rfl | hv2
      · exact hu
      · exact ih (fun w hw => hpos w (List.mem_cons_of_mem _ hw)) h v hv2

/-! ### Claim theorems -/

/-- Claim C1: the claim asserts that `_highlight`'s output never contains an
unescaped ampersand or angle bracket from the source text.  The code violates
it: matching is performed on the *escaped* text, so a bucket term such as
`"amp"` matches inside the entity `&amp;` produced for a source `&`, and the
substitution tears the entity apart.  On text `"&"` with good bucket
`["amp"]` the output is `&<span class="hl hl-good">amp</span>;` — a bare
`&` from the source text, outside the inserted span markup — while the plain
escaper alone keeps every ampersand entity-escaped. -/
theorem claim_C1_escaping_bug_eval :
    _highlight "&".data ["amp".data] [] [] []
        = ("&<span class=".data ++ ['"'] ++ "hl hl-good".data ++ ['"', '>']
            ++ "amp</span>;".data)
      ∧ ampEscapedOk (_highlight "&".data ["amp".data] [] [] []) = false
      ∧ ampEscapedOk (escapeHtml "&".data) = true := by
  refine ⟨by decide, by decide, by decide⟩

/-- Claim C2: both ATS score computations — the weighted one of
`compute_metrics` and the simplified one of `process_jd_route` — return an
integer in [0, 100] for every combination of bucket counts and penalty
inputs, thanks to the terminal `max(0, min(100, …))` clamp. -/
theorem claim_C2_scores_in_range :
    (∀ pr mr po mo pt mt ps ms weak low : ℕ,
        0 ≤ computeMetricsScore pr mr po mo pt mt ps ms weak low
          ∧ computeMetricsScore pr mr po mo pt mt ps ms weak low ≤ 100)
      ∧ (∀ (pr mr po mo : Finset Str) (wk lw : List Str) (resume : Str),
        0 ≤ processJdAtsScore pr mr po mo wk lw resume
          ∧ processJdAtsScore pr mr po mo wk lw resume ≤ 100) :=
  ⟨fun _ _ _ _ _ _ _ _ _ _ => clampRange _,
   fun _ _ _ _ _ _ _ => clampRange _⟩

/-- Claim C3, counterexample: the claim says the weighted score is *rounded
to the nearest integer*; the code truncates with `int(...)`.  With no
required/technical/soft terms, 3 present and 1 missing optional term and no
penalties, the base is 18.75: the code yields 18 while the claimed
round-to-nearest formula yields 19. -/
theorem claim_C3_truncation_counterexample :
    computeMetricsScore 0 0 3 1 0 0 0 0 0 0 = 18
      ∧ specWeightedScoreRounded 0 0 3 1 0 0 0 0 0 0 = 19
      ∧ computeMetricsScore 0 0 3 1 0 0 0 0 0 0
          ≠ specWeightedScoreRounded 0 0 3 1 0 0 0 0 0 0 := by
  refine ⟨?_, ?_, ?_⟩
  · norm_num [computeMetricsScore, bucketCoverage, ratTrunc, min_def, max_def,
      Int.floor_eq_iff]
  · norm_num [specWeightedScoreRounded, bucketCoverage, pyRound, min_def, max_def,
      Int.floor_eq_iff]
  · norm_num [computeMetricsScore, specWeightedScoreRounded, bucketCoverage,
      ratTrunc, pyRound, min_def, max_def, Int.floor_eq_iff]

/-- Claim C3, amended: for all inputs the weighted ATS score of
`compute_metrics` equals
`100·(0.50·req + 0.25·opt + 0.20·tech + 0.05·min(1, soft coverage))`
minus `min(0.7·base, 8·missing_required + 3·weak + 2·low_context)`, with the
result *truncated toward zero* (not rounded to nearest) and clamped to
[0,100]. -/
theorem claim_C3_weighted_formula_truncated (pr mr po mo pt mt ps ms weak low : ℕ) :
    computeMetricsScore pr mr po mo pt mt ps ms weak low
      = specWeightedScoreTruncated pr mr po mo pt mt ps ms weak low := by
  simp only [computeMetricsScore, specWeightedScoreTruncated]
  congr 3
  ring_nf
  rw [min_comm ((mr : ℚ) * 8 + (weak : ℚ) * 3 + (low : ℚ) * 2)]

/-- Claim C4: for all inputs, the simplified ATS score of `process_jd_route`
equals `round(100·(0.65·req_cov + 0.25·opt_cov) − (5·c + 2·max(0, w−3) +
1·l))` clamped to [0,100], where `c` counts only the missing required terms
in the curated priority set, and `w`, `l` count the weak-language and
low-context phrases that actually occur in the resume text.  (Float
arithmetic is idealized by exact rationals on both sides.) -/
theorem claim_C4_simplified_formula (pr mr po mo : Finset Str) (wk lw : List Str)
    (resume : Str) :
    processJdAtsScore pr mr po mo wk lw resume
      = specSimplifiedScore pr mr po mo wk lw resume := by
  simp only [processJdAtsScore, specSimplifiedScore]
  congr 3
  push_cast
  ring

/-- Claim C5 (amended): for every term whose canonical form contains at least
one non-separator character (and no backslash — the proviso under which the
structural pattern model is the compiled-pattern dispatch of the source),
`present_missing_with_surface(text, [term])` reports the term present iff a
*nonempty* anchored (case-insensitive, lookaround-bounded) occurrence of the
term or one of its declared variants exists in the text, and any recorded
surface is a literal substring of the text, with its original casing, at
which some declared variant matches.  (The original claim, without the
non-separator proviso, is refuted by `claim_C5_separator_counterexample`.) -/
theorem claim_C5_presence_iff (rawTerm text : Str)
    (hb : ('\\' : Char) ∉ canonical rawTerm)
    (hc : hasNonSep (canonical rawTerm) = true) :
    presenceClaim rawTerm text ∧ surfaceClaim rawTerm text := by
  have _hb := hb
  have ht : canonical rawTerm ≠ [] := hasNonSep_ne_nil _ hc
  have hcontent := term_variants_content (canonical rawTerm) hc
  have hpos : ∀ v ∈ compile_patterns_for_term (canonical rawTerm), ∀ out,
      searchVariant v none text = some out → out ≠ [] := by
    intro v hv out hout hnil
    subst hnil
    obtain ⟨j, L, hj, hnb, hm, hout'⟩ := searchVariant_some_inv v text none [] hout
    have hL : 0 < L := variantMatchLen_pos v (hcontent v hv) _ _ hm
    have hle : L ≤ (text.drop j).length := variantMatchLen_le v _ _ hm
    have hlen := congrArg List.length hout'
    simp only [List.length_take, List.length_drop, List.length_nil] at hlen
    simp only [List.length_drop] at hle
    omega
  have hpm1 : (present_missing_with_surface text [rawTerm] none).1
      = ([rawTerm].foldl (pmStep text) (∅, ∅, [])).1 := rfl
  constructor
  · unfold presenceClaim
    rw [hpm1]
    have hmem := pm_foldl_present_mem text [rawTerm] (∅, ∅, []) (canonical rawTerm)
    rw [hmem]
    constructor
    · rintro (habs | ⟨raw, hraw, hcan, _, hne⟩)
      · simp at habs
      · obtain ⟨v, hv, hsv⟩ := anyMatch_some_inv text _ _ rfl hne
        obtain ⟨j, L, hj, hnb, hm, _⟩ := searchVariant_some_inv v text none _ hsv
        refine ⟨v, hv, j, L, ?_, variantMatchLen_pos v (hcontent v hv) _ _ hm⟩
        unfold matchAtPos
        rw [← prevOf_none_eq_prevCharAt, if_pos hnb]
        exact hm
    · rintro ⟨v, hv, i, L, hmat, hL⟩
      unfold matchAtPos at hmat
      rw [← prevOf_none_eq_prevCharAt] at hmat
      by_cases hnb : noWordBefore (prevOf none text i) = true
      · rw [if_pos hnb] at hmat
        have hle : L ≤ (text.drop i).length := variantMatchLen_le v _ _ hmat
        simp only [List.length_drop] at hle
        have hi : i ≤ text.length := by omega
        refine Or.inr ⟨rawTerm, List.mem_singleton.mpr rfl, rfl, ht, ?_⟩
        intro hnilmatch
        have hvnone := anyMatch_nil_inv text _ hpos hnilmatch v hv
        have := searchVariant_none_inv v text none hvnone i hi hnb
        rw [this] at hmat
        exact absurd hmat (by simp)
      · rw [if_neg hnb] at hmat
        exact absurd hmat (by simp)
  · unfold surfaceClaim
    intro s hs
    have hseq : (present_missing_with_surface text [rawTerm] none).2.2
        = (pmStep text (∅, ∅, []) rawTerm).2.2 := rfl
    rw [hseq] at hs
    simp only [pmStep] at hs
    rw [if_neg ht] at hs
    by_cases hsurf :
        anyMatchWithSurface text (compile_patterns_for_term (canonical rawTerm)) = []
    · rw [if_pos hsurf] at hs
      simp [List.lookup] at hs
    · rw [if_neg hsurf] at hs
      rw [lookup_updateAssoc, if_pos rfl] at hs
      have hss : s = anyMatchWithSurface text (compile_patterns_for_term (canonical rawTerm)) :=
        (Option.some.injEq _ _ ▸ hs).symm
      obtain ⟨v, hv, hsv⟩ := anyMatch_some_inv text _ _ rfl hsurf
      rw [← hss] at hsv
      obtain ⟨j, L, hj, hnb, hm, hout⟩ := searchVariant_some_inv v text none s hsv
      have hle : L ≤ (text.drop j).length := variantMatchLen_le v _ _ hm
      have hL : 0 < L := variantMatchLen_pos v (hcontent v hv) _ _ hm
      have hlen : s.length = L := by
        rw [hout, List.length_take]
        omega
      refine ⟨by omega, v, hv, j, ?_, ?_⟩
      · rw [hlen]
        exact hout
      · unfold matchAtPos
        rw [← prevOf_none_eq_prevCharAt, if_pos hnb, hlen]
        exact hm

/-- Claim C5, witness: the scenario of the claim.  The term `"power bi"`
matched against `"Built dashboards in PowerBI"` satisfies both provisos, the
amended biconditional holds, the term is reported present, and the recorded
surface is the literal `"PowerBI"` with its original casing. -/
theorem claim_C5_presence_iff_witness :
    (('\\' : Char) ∉ canonical "power bi".data)
      ∧ hasNonSep (canonical "power bi".data) = true
      ∧ (presenceClaim "power bi".data "Built dashboards in PowerBI".data
          ∧ surfaceClaim "power bi".data "Built dashboards in PowerBI".data)
      ∧ canonical "power bi".data
          ∈ (present_missing_with_surface "Built dashboards in PowerBI".data
              ["power bi".data] none).1
      ∧ List.lookup (canonical "power bi".data)
          (present_missing_with_surface "Built dashboards in PowerBI".data
            ["power bi".data] none).2.2 = some "PowerBI".data :=
  ⟨by decide, by decide,
    claim_C5_presence_iff "power bi".data "Built dashboards in PowerBI".data
      (by decide) (by decide),
    by decide, by decide⟩

/-- Claim C5, counterexample: the claim as stated fails for a term made only
of separator characters.  For the term `"-"`, one declared variant is the
bare flexible-separator fragment, which produces an *empty* match; on the
text `"!! !"` that empty match (at position 2) is found first, so
`any_match_with_surface` returns `""` and the term is reported *missing* —
although the whitespace variant has a nonempty anchored occurrence (the
space at position 2), which the claim says should make it present. -/
theorem claim_C5_separator_counterexample :
    ¬ presenceClaim "-".data "!! !".data := by
  intro h
  have hmem : canonical "-".data
      ∈ (present_missing_with_surface "!! !".data ["-".data] none).1 :=
    h.mpr ⟨Variant.wsj [[], []], by decide, 2, 1, by decide, by decide⟩
  exact absurd hmem (by decide)

/-- Claim C6: the claim asserts that a term claimed by both the critical and
the good bucket is always rendered `hl-critical`, because later bucket
patterns cannot re-match inside a placeholder.  The code violates it: the
placeholder `@@H0@@` itself contains the word `H0`, so a bucket term `"H0"`
re-matches *inside* the critical placeholder, the critical markup is lost,
and the term is rendered `hl-good`.  On text `"H0"` with `critical = good =
["H0"]` the output is `@@<span class="hl hl-good">H0</span>@@`: it contains
an `hl-good` span and no `hl-critical` span. -/
theorem claim_C6_priority_bug_eval :
    _highlight "H0".data ["H0".data] ["H0".data] [] []
        = ("@@<span class=".data ++ ['"'] ++ "hl hl-good".data ++ ['"', '>']
            ++ "H0</span>@@".data)
      ∧ containsSub "hl-critical".data
          (_highlight "H0".data ["H0".data] ["H0".data] [] []) = false
      ∧ containsSub "hl-good".data
          (_highlight "H0".data ["H0".data] ["H0".data] [] []) = true := by
  refine ⟨by decide, by decide, by decide⟩

/-- Claim C7: the `synonyms` parameter of `present_missing_with_surface` is
accepted but never read: for any two synonym dictionaries (including none at
all) the present set, missing set and surface map are identical, so the
role-aware aliases passed at the call sites have no effect. -/
theorem claim_C7_synonyms_unused :
    ∀ (text : Str) (terms : List Str) (s1 s2 : Option SynDict),
      present_missing_with_surface text terms s1
        = present_missing_with_surface text terms s2 :=
  fun _ _ _ _ => rfl

/-- Claim C8: `present_missing_with_surface` is deterministic — two runs on
identical input give identical present sets, missing sets and surfaces — and
the present set has an extensional characterization (a canonical term is
present exactly when it comes from some input term and some declared variant
matches the text), so the exposed sets do not depend on any iteration
order. -/
theorem claim_C8_deterministic :
    ∀ (text : Str) (terms : List Str) (syn : Option SynDict),
      present_missing_with_surface text terms syn
          = present_missing_with_surface text terms syn
        ∧ ∀ t, t ∈ (present_missing_with_surface text terms syn).1 ↔
            ∃ raw ∈ terms, canonical raw = t ∧ t ≠ []
              ∧ anyMatchWithSurface text (compile_patterns_for_term t) ≠ [] := by
  intro text terms syn
  refine ⟨rfl, fun t => ?_⟩
  have h := pm_foldl_present_mem text terms (∅, ∅, []) t
  simpa [present_missing_with_surface] using h

/-- Claim C9: a term whose canonical form is empty is skipped — the empty
string never appears in the present set, the missing set, or the surface
map — and an empty bucket yields coverage 0 through the `max(1, …)`
denominator instead of a division-by-zero error. -/
theorem claim_C9_empty_handling :
    (∀ (text : Str) (terms : List Str) (syn : Option SynDict),
        ([] : Str) ∉ (present_missing_with_surface text terms syn).1
          ∧ ([] : Str) ∉ (present_missing_with_surface text terms syn).2.1
          ∧ List.lookup ([] : Str)
              (present_missing_with_surface text terms syn).2.2 = none)
      ∧ bucketCoverage 0 0 = 0 := by
  constructor
  · intro text terms syn
    have h := pm_foldl_empty_free text terms (∅, ∅, []) (by simp [List.lookup])
    simpa [present_missing_with_surface] using h
  · norm_num [bucketCoverage]

/-- Claim C10: `highlight("C++ is great", critical=["c++"])` wraps the
literal `C++` in an `hl-critical` span — the escaped, lookaround-anchored
pattern matches the punctuation-containing term at the string edge — while a
plain `++` in unrelated text (`"i++ j"`) is not matched at all. -/
theorem claim_C10_cpp_scenario :
    _highlight "C++ is great".data [] ["c++".data] [] []
        = ("<span class=".data ++ ['"'] ++ "hl hl-critical".data ++ ['"', '>']
            ++ "C++</span> is great".data)
      ∧ _highlight "i++ j".data [] ["c++".data] [] [] = "i++ j".data := by
  refine ⟨by decide, by decide⟩

end CvMatcher
